import Mathlib

/-!
Verification of the financial-data-extractor repository.

This file gives a shallow embedding in Lean 4 of the parts of the code that
the checked properties speak about:

* src/utils/text_chunker.py      (TextChunker)
* src/models/vector_store.py     (VectorStore, FAISS IndexFlatL2 modelled as
                                  the list of stored vectors)
* src/processors/data_normalizer.py (DataNormalizer conflict resolution)
* src/models/qa_model.py         (RAGQuestionAnswerer.answer_question)

Python strings become lists of characters; Python floats become rationals
(for values computed by the code) and reals (for the transcendental
similarity scores exp(-distance)); Python dicts with a fixed key set become
structures, with missing optional keys as Option.  Functions that can raise
return an error component together with the state as it is at the moment of
the raise, so partial mutation before an exception is visible.

Whitespace is modelled as the six ASCII whitespace characters recognised by
Python's default str.strip and the regex class for whitespace.
-/

/-- The characters Python treats as whitespace (ASCII fragment). -/
def isWS (c : Char) : Bool :=
  c == ' ' || c == '\t' || c == '\n' || c == '\r' || c == '\x0B' || c == '\x0C'

/-- Python str.strip: drop leading and trailing whitespace. -/
def pyStrip (l : List Char) : List Char :=
  ((l.dropWhile (fun c => isWS c)).reverse.dropWhile (fun c => isWS c)).reverse

/-- The subsequence of non-whitespace characters of a string. -/
def nonWS (l : List Char) : List Char :=
  l.filter (fun c => !(isWS c))

/-- One step of re.sub applied to a whole string: collapse every maximal
whitespace run to a single space.  Embeds the first substitution of
TextChunker._clean_text. -/
def collapseWS : List Char → List Char
  | [] => []
  | c :: rest =>
    if isWS c then ' ' :: collapseWS (rest.dropWhile (fun d => isWS d))
    else c :: collapseWS rest
termination_by l => l.length
decreasing_by
  · simp only [List.length_cons]
    have := (List.dropWhile_sublist (l := rest) (fun d => isWS d)).length_le
    omega
  · simp

/-- Index of the last newline of a string, if any.  Used to embed the greedy
regex fragment that, after a first newline, swallows inner whitespace up to
the last newline of the whitespace run. -/
def lastNLIdx (l : List Char) : Option Nat :=
  ((List.range l.length).filter (fun i => l.get? i == some '\n')).max?

/-- Embeds the second substitution of TextChunker._clean_text: each match of
a newline, whitespace, newline pattern is replaced by exactly two newlines,
scanning left to right over non-overlapping matches. -/
def subNL : List Char → List Char
  | [] => []
  | c :: rest =>
    if c = '\n' then
      match lastNLIdx (rest.takeWhile (fun d => isWS d)) with
      | some k => '\n' :: '\n' :: subNL (rest.drop (k + 1))
      | none => c :: subNL rest
    else c :: subNL rest
termination_by l => l.length
decreasing_by
  · simp only [List.length_cons]
    have := List.length_drop (k + 1) rest
    omega
  · simp
  · simp

/-- TextChunker._clean_text: collapse whitespace runs, rewrite blank-line
separators, strip. -/
def clean_text (text : List Char) : List Char :=
  pyStrip (subNL (collapseWS text))

/-- Worker for the blank-line split of TextChunker._split_into_paragraphs:
re.split on the newline, whitespace, newline pattern. -/
def splitParasAux (cur : List Char) : List Char → List (List Char)
  | [] => [cur]
  | c :: rest =>
    if c = '\n' then
      match lastNLIdx (rest.takeWhile (fun d => isWS d)) with
      | some k => cur :: splitParasAux [] (rest.drop (k + 1))
      | none => splitParasAux (cur ++ [c]) rest
    else splitParasAux (cur ++ [c]) rest
termination_by l => l.length
decreasing_by
  · simp only [List.length_cons]
    have := List.length_drop (k + 1) rest
    omega
  · simp
  · simp

/-- TextChunker._split_into_paragraphs: split on blank lines, strip each
piece, keep the non-blank pieces. -/
def split_into_paragraphs (text : List Char) : List (List Char) :=
  (splitParasAux [] text).filterMap fun p =>
    let q := pyStrip p
    if q = [] then none else some q

/-- Is this the character class after which the sentence regex may split
(lookbehind on period, exclamation or question mark)? -/
def isSentEnd : Option Char → Bool
  | some '.' => true
  | some '!' => true
  | some '?' => true
  | _ => false

/-- Worker for TextChunker._split_into_sentences: re.split on whitespace
runs preceded by a sentence-ending character. -/
def splitSentAux (cur : List Char) : List Char → List (List Char)
  | [] => [cur]
  | c :: rest =>
    if isWS c && isSentEnd cur.getLast? then
      cur :: splitSentAux [] (rest.dropWhile (fun d => isWS d))
    else splitSentAux (cur ++ [c]) rest
termination_by l => l.length
decreasing_by
  · simp only [List.length_cons]
    have := (List.dropWhile_sublist (l := rest) (fun d => isWS d)).length_le
    omega
  · simp

/-- TextChunker._split_into_sentences. -/
def split_into_sentences (text : List Char) : List (List Char) :=
  (splitSentAux [] text).filterMap fun s =>
    let q := pyStrip s
    if q = [] then none else some q

/-- Chunker configuration: chunk_size and chunk_overlap from
TextChunker.__init__. -/
structure ChunkerCfg where
  chunk_size : Nat
  chunk_overlap : Nat
deriving DecidableEq

/-- The inner sentence loop of TextChunker.chunk_text, returning the pending
current chunk and the accumulated finished chunks. -/
def sentLoop (cfg : ChunkerCfg) :
    List (List Char) → List Char → List (List Char) →
    List Char × List (List Char)
  | [], cur, acc => (cur, acc)
  | s :: rest, cur, acc =>
    if cfg.chunk_size < cur.length + s.length then
      let acc1 := if cur = [] then acc else acc ++ [pyStrip cur]
      sentLoop cfg rest (s ++ [' ']) acc1
    else
      sentLoop cfg rest (cur ++ s ++ [' ']) acc

/-- The paragraph loop of TextChunker.chunk_text. -/
def paraLoop (cfg : ChunkerCfg) :
    List (List Char) → List Char → List (List Char) →
    List Char × List (List Char)
  | [], cur, acc => (cur, acc)
  | p :: rest, cur, acc =>
    if cfg.chunk_size < p.length then
      let acc1 := if cur = [] then acc else acc ++ [pyStrip cur]
      let r := sentLoop cfg (split_into_sentences p) [] acc1
      paraLoop cfg rest r.1 r.2
    else
      if cfg.chunk_size < cur.length + p.length then
        let acc1 := if cur = [] then acc else acc ++ [pyStrip cur]
        paraLoop cfg rest (p ++ ['\n', '\n']) acc1
      else
        paraLoop cfg rest (cur ++ p ++ ['\n', '\n']) acc

/-- TextChunker.chunk_text, modelled on the chunk texts only (the metadata
dictionary and the chunk_index / total_chunks decoration carry no text). -/
def chunk_text (cfg : ChunkerCfg) (text : List Char) : List (List Char) :=
  if text = [] ∨ pyStrip text = [] then []
  else
    let t := clean_text text
    let ps := split_into_paragraphs t
    let r := paraLoop cfg ps [] []
    if pyStrip r.1 ≠ [] then r.2 ++ [pyStrip r.1] else r.2

/-- Python slice s[a:b] with possibly negative and out-of-range bounds. -/
def pySlice (s : List Char) (a b : Int) : List Char :=
  let n : Int := s.length
  let na := if a < 0 then max 0 (n + a) else min a n
  let nb := if b < 0 then max 0 (n + b) else min b n
  (s.take nb.toNat).drop na.toNat

/-- Python str.rfind: highest index at which the needle occurs in the
haystack, or -1. -/
def pyRfind (needle hay : List Char) : Int :=
  match ((List.range (hay.length + 1)).filter
      (fun i => needle.isPrefixOf (hay.drop i))).max? with
  | some i => (i : Int)
  | none => -1

/-- The delimiter scan of TextChunker.chunk_with_overlap: try the four
sentence delimiters in order, return the rfind position and delimiter
length for the first delimiter that occurs in the window. -/
def findDelim (window : List Char) : Option (Int × Nat) :=
  let go : List (List Char) → Option (Int × Nat) := fun ds =>
    ds.foldr (fun d r =>
      if pyRfind d window ≠ -1 then some (pyRfind d window, d.length) else r)
      none
  go [['.', ' '], ['!', ' '], ['?', ' '], ['\n']]

/-- The window end computed by one iteration of chunk_with_overlap:
min(start + chunk_size, text_length), pulled back to the last sentence
delimiter inside the window when the window does not reach the end of the
text. -/
def computeEnd (cfg : ChunkerCfg) (text : List Char) (start : Int) : Int :=
  let L : Int := text.length
  let end0 := min (start + (cfg.chunk_size : Int)) L
  if end0 < L then
    match findDelim (pySlice text start end0) with
    | some pd => start + pd.1 + (pd.2 : Int)
    | none => end0
  else end0

/-- The while-loop of TextChunker.chunk_with_overlap, written with explicit
fuel: none means the fuel ran out before the loop condition start ≥ length
was reached.  Each iteration slices the window, strips it, appends it when
non-blank, and sets start to end - chunk_overlap. -/
def overlapLoop (cfg : ChunkerCfg) (text : List Char) :
    Nat → Int → List (List Char) → Option (List (List Char))
  | 0, _, _ => none
  | fuel + 1, start, acc =>
    if start < (text.length : Int) then
      let e := computeEnd cfg text start
      let ct := pyStrip (pySlice text start e)
      let acc1 := if ct = [] then acc else acc ++ [ct]
      overlapLoop cfg text fuel (e - (cfg.chunk_overlap : Int)) acc1
    else some acc

/-- TextChunker.chunk_with_overlap (chunk texts only), with fuel for the
while-loop. -/
def chunk_with_overlap (cfg : ChunkerCfg) (text : List Char) (fuel : Nat) :
    Option (List (List Char)) :=
  if text = [] ∨ pyStrip text = [] then some []
  else overlapLoop cfg (clean_text text) fuel 0 []

/-- A metadata dictionary, modelled as an association list. -/
def Meta : Type := List (String × String)

instance : DecidableEq Meta := by
  unfold Meta
  infer_instance

/-- A chunk dictionary as passed to VectorStore.add_chunks: the optional
keys text, metadata and embedding.  A missing key raises KeyError when
accessed with brackets. -/
structure PyChunk where
  text : Option String
  metadata : Option Meta
  embedding : Option (List ℚ)
deriving DecidableEq

/-- A stored chunk copy: VectorStore.add_chunks keeps only text and
metadata (metadata defaulted to the empty dict by chunk.get). -/
structure Entry where
  text : String
  metadata : Meta
deriving DecidableEq

/-- The Python exceptions the modelled code can raise. -/
inductive PyErr where
  | keyError
  | valueError
  | assertionError
  | fileNotFound
deriving DecidableEq

/-- VectorStore state: the configured dimension, the FAISS IndexFlatL2
(modelled as the list of stored vectors, ntotal = length) and the stored
chunk copies. -/
structure VectorStore where
  embedding_dimension : Nat
  index : List (List ℚ)
  chunks : List Entry
deriving DecidableEq

/-- VectorStore.__init__ and _initialize_index: fresh empty index. -/
def VectorStore.init (d : Nat) : VectorStore :=
  { embedding_dimension := d, index := [], chunks := [] }

/-- The list comprehension chunk['embedding'] for chunk in chunks: KeyError
(none) as soon as a chunk has no embedding. -/
def extractEmbeddings : List PyChunk → Option (List (List ℚ))
  | [] => some []
  | c :: rest =>
    match c.embedding, extractEmbeddings rest with
    | some e, some es => some (e :: es)
    | _, _ => none

/-- np.array on a list of vectors: a rectangular matrix needs all rows of
one length; a ragged list raises ValueError (none). -/
def uniformLength : List (List ℚ) → Option Nat
  | [] => some 0
  | e :: rest =>
    if rest.all (fun x => x.length = e.length) then some e.length else none

/-- The chunk-copy loop at the end of VectorStore.add_chunks.  The FAISS add
has already happened; a KeyError on a missing text key aborts the loop with
the entries appended so far kept. -/
def appendEntriesLoop : VectorStore → List PyChunk →
    Option PyErr × VectorStore
  | st, [] => (none, st)
  | st, c :: rest =>
    match c.text with
    | none => (some .keyError, st)
    | some t =>
      appendEntriesLoop
        { st with chunks := st.chunks ++ [{ text := t, metadata := c.metadata.getD [] }] }
        rest

/-- VectorStore.add_chunks.  The error component is the raised exception,
and the returned state is the state at the moment of return or raise:
the FAISS add is all-or-nothing and validates the dimension, while the
chunk-copy loop mutates entry by entry. -/
def add_chunks (st : VectorStore) (cs : List PyChunk) :
    Option PyErr × VectorStore :=
  if cs.isEmpty then (none, st)
  else
    match extractEmbeddings cs with
    | none => (some .keyError, st)
    | some embs =>
      match uniformLength embs with
      | none => (some .valueError, st)
      | some L =>
        if L = st.embedding_dimension then
          appendEntriesLoop { st with index := st.index ++ embs } cs
        else (some .assertionError, st)

/-- VectorStore.clear: reinitialise the index and empty the chunk list. -/
def VectorStore.clear (st : VectorStore) : VectorStore :=
  { embedding_dimension := st.embedding_dimension, index := [], chunks := [] }

/-- The statistics dictionary of VectorStore.get_stats. -/
structure Stats where
  total_chunks : Nat
  embedding_dimension : Nat
  index_size : Nat
deriving DecidableEq

/-- VectorStore.get_stats. -/
def get_stats (st : VectorStore) : Stats :=
  { total_chunks := st.chunks.length
    embedding_dimension := st.embedding_dimension
    index_size := st.index.length }

/-- The two companion artifacts VectorStore.save writes: the FAISS index
file and the pickled chunk list, either of which may be missing on disk. -/
structure StoreFiles where
  index_file : Option (List (List ℚ))
  chunks_file : Option (List Entry)

/-- VectorStore.load: read the index file into self.index, then read the
chunks file into self.chunks.  A missing file raises at the corresponding
read; no consistency check between the two artifacts is performed. -/
def load (st : VectorStore) (fs : StoreFiles) : Option PyErr × VectorStore :=
  match fs.index_file with
  | none => (some .fileNotFound, st)
  | some idx =>
    let st1 := { st with index := idx }
    match fs.chunks_file with
    | none => (some .fileNotFound, st1)
    | some cs => (none, { st1 with chunks := cs })

/-- Squared L2 distance, the metric of faiss.IndexFlatL2. -/
def sqL2 (q v : List ℚ) : ℚ :=
  ((q.zip v).map (fun p => (p.1 - p.2) * (p.1 - p.2))).sum

/-- The comparison by which FAISS returns neighbours: ascending distance,
ties in storage order. -/
def distLE (a b : Nat × ℚ) : Prop := a.2 ≤ b.2

instance : DecidableRel distLE := fun a b => by
  unfold distLE
  infer_instance

instance : IsTotal (Nat × ℚ) distLE :=
  ⟨fun a b => le_total a.2 b.2⟩

instance : IsTrans (Nat × ℚ) distLE :=
  ⟨fun _ _ _ hab hbc => le_trans hab hbc⟩

/-- VectorStore.search: empty-store guard, k clamped to ntotal, the k
nearest stored vectors by squared L2 distance in ascending order, each
paired with its stored chunk when the index position is in range. -/
def search (st : VectorStore) (q : List ℚ) (k : Nat) :
    List (Entry × ℚ) :=
  if st.index.length = 0 then []
  else
    let pairs := (st.index.map (fun v => sqL2 q v)).enum
    let sorted := pairs.insertionSort distLE
    let top := sorted.take (min k st.index.length)
    top.filterMap fun p =>
      if h : p.1 < st.chunks.length then some (st.chunks.get ⟨p.1, h⟩, p.2)
      else none

open Classical in
/-- VectorStore.search_with_score: map each distance to
similarity = exp(-distance), keep results meeting the optional threshold. -/
noncomputable def search_with_score (st : VectorStore) (q : List ℚ)
    (k : Nat) (threshold : Option ℝ) : List (Entry × ℝ) :=
  (search st q k).filterMap fun p =>
    let s : ℝ := Real.exp (-(p.2 : ℝ))
    match threshold with
    | none => some (p.1, s)
    | some t => if t ≤ s then some (p.1, s) else none

/-- An operation on a vector store: one add_chunks call (whose outcome,
success or raise, is kept in the resulting state) or one clear call. -/
inductive StoreOp where
  | add (cs : List PyChunk)
  | clear
deriving DecidableEq

/-- Apply one operation, discarding the raised exception as a caller with a
try/except would. -/
def applyOp (st : VectorStore) : StoreOp → VectorStore
  | .add cs => (add_chunks st cs).2
  | .clear => st.clear

/-- Run a sequence of operations from a state. -/
def runOps (st : VectorStore) : List StoreOp → VectorStore
  | [] => st
  | op :: rest => runOps (applyOp st op) rest

/-- Every chunk of an add operation carries a text key (clear operations
impose nothing). -/
def textsOk : StoreOp → Prop
  | .add cs => ∀ c ∈ cs, c.text.isSome
  | .clear => True

instance : DecidablePred textsOk := fun op =>
  match op with
  | .add cs => (inferInstance : Decidable (∀ c ∈ cs, c.text.isSome = true))
  | .clear => .isTrue trivial

/-- One candidate of DataNormalizer._resolve_multi_value: a value and a
confidence. -/
structure Cand where
  value : ℚ
  confidence : ℚ
deriving DecidableEq

/-- The comparison of sorted(values, key=confidence, reverse=True):
descending confidence, ties in original order. -/
def confGE (a b : Cand) : Prop := b.confidence ≤ a.confidence

instance : DecidableRel confGE := fun a b => by
  unfold confGE
  infer_instance

instance : IsTotal Cand confGE :=
  ⟨fun a b => le_total b.confidence a.confidence⟩

instance : IsTrans Cand confGE :=
  ⟨fun _ _ _ hab hbc => le_trans hbc hab⟩

/-- Stable descending sort by confidence. -/
def sortDescByConf (values : List Cand) : List Cand :=
  values.insertionSort confGE

/-- sum(v['confidence'] for v in values). -/
def totalWeight (values : List Cand) : ℚ :=
  (values.map (fun v => v.confidence)).sum

/-- sum(v['value'] * v['confidence'] for v in values). -/
def weightedSum (values : List Cand) : ℚ :=
  (values.map (fun v => v.value * v.confidence)).sum

/-- DataNormalizer._resolve_multi_value: sort descending by confidence;
when the top confidence beats the runner-up by more than 0.2 return the top
value; otherwise return the confidence-weighted mean, falling back to the
top value when the total weight is not positive.  none models the
IndexError on fewer than two candidates. -/
def resolve_multi_value (values : List Cand) : Option ℚ :=
  match sortDescByConf values with
  | a :: b :: _ =>
    if 1/5 < a.confidence - b.confidence then some a.value
    else
      let tw := totalWeight values
      let ws := weightedSum values
      some (if 0 < tw then ws / tw else a.value)
  | _ => none

/-- A source record of RAGQuestionAnswerer.answer_question. -/
structure QASource where
  text : String
  similarity : ℝ
  metadata : Meta

/-- The result dictionary of RAGQuestionAnswerer.answer_question.  The two
short-circuit returns omit the num_sources key. -/
structure QAResult where
  answer : String
  sources : List QASource
  confidence : ℝ
  num_sources : Option Nat

/-- The fixed reply to a blank question. -/
def emptyQuestionMsg : String := "Please provide a valid question."

/-- The fixed reply when retrieval finds nothing. -/
def noContextMsg : String :=
  "I could not find relevant information to answer this question."

/-- RAGQuestionAnswerer.answer_question, with the embedder and the answer
generator abstracted as function parameters (they live in external model
code).  The blank-question guard, retrieval with threshold, and result
assembly follow src/models/qa_model.py. -/
noncomputable def answer_question (embed : String → List ℚ)
    (gen : String → List String → List QASource → String)
    (st : VectorStore) (question : String) (k : Nat)
    (min_similarity : ℝ) : QAResult :=
  if question = "" ∨ pyStrip question.data = [] then
    { answer := emptyQuestionMsg, sources := [], confidence := 0,
      num_sources := none }
  else
    let qe := embed question
    let results := search_with_score st qe k (some min_similarity)
    if results.isEmpty then
      { answer := noContextMsg, sources := [], confidence := 0,
        num_sources := none }
    else
      let sources := results.map fun p =>
        { text := p.1.text, similarity := p.2, metadata := p.1.metadata }
      let contexts := results.map fun p => p.1.text
      { answer := gen question contexts sources
        sources := sources
        confidence := ((sources.head?).map (fun s => s.similarity)).getD 0
        num_sources := some sources.length }

theorem extractEmbeddings_mem {cs : List PyChunk} {embs : List (List ℚ)}
    (h : extractEmbeddings cs = some embs) :
    ∀ c ∈ cs, ∀ e, c.embedding = some e → e ∈ embs := by
  induction cs generalizing embs with
  | nil => intro c hc; simp at hc
  | cons c0 rest ih =>
    intro c hc e he
    simp only [extractEmbeddings] at h
    cases h0 : c0.embedding with
    | none => rw [h0] at h; simp at h
    | some e0 =>
      rw [h0] at h
      cases hr : extractEmbeddings rest with
      | none => rw [hr] at h; simp at h
      | some es =>
        rw [hr] at h
        simp only [Option.some.injEq] at h
        subst h
        rcases List.mem_cons.1 hc with hc | hc
        · subst hc
          rw [h0] at he
          simp only [Option.some.injEq] at he
          subst he
          exact List.mem_cons_self _ _
        · exact List.mem_cons_of_mem _ (ih hr c hc e he)

theorem extractEmbeddings_length {cs : List PyChunk} {embs : List (List ℚ)}
    (h : extractEmbeddings cs = some embs) : embs.length = cs.length := by
  induction cs generalizing embs with
  | nil => simp only [extractEmbeddings, Option.some.injEq] at h; subst h; rfl
  | cons c0 rest ih =>
    simp only [extractEmbeddings] at h
    cases h0 : c0.embedding with
    | none => rw [h0] at h; simp at h
    | some e0 =>
      rw [h0] at h
      cases hr : extractEmbeddings rest with
      | none => rw [hr] at h; simp at h
      | some es =>
        rw [hr] at h
        simp only [Option.some.injEq] at h
        subst h
        simp [ih hr]

theorem uniformLength_mem {embs : List (List ℚ)} {L : Nat}
    (h : uniformLength embs = some L) : ∀ e ∈ embs, e.length = L := by
  cases embs with
  | nil => intro e he; simp at he
  | cons e0 rest =>
    simp only [uniformLength] at h
    by_cases hall : rest.all (fun x => x.length = e0.length)
    · rw [if_pos hall] at h
      simp only [Option.some.injEq] at h
      subst h
      intro e he
      rcases List.mem_cons.1 he with he | he
      · subst he; rfl
      · have := List.all_eq_true.1 hall e he
        simpa using this
    · rw [if_neg hall] at h; simp at h

theorem appendEntriesLoop_all_texts (cs : List PyChunk) :
    ∀ st : VectorStore, (∀ c ∈ cs, c.text.isSome) →
    (appendEntriesLoop st cs).1 = none ∧
    (appendEntriesLoop st cs).2.index = st.index ∧
    (appendEntriesLoop st cs).2.embedding_dimension = st.embedding_dimension ∧
    (appendEntriesLoop st cs).2.chunks.length = st.chunks.length + cs.length := by
  induction cs with
  | nil => intro st _; simp [appendEntriesLoop]
  | cons c0 rest ih =>
    intro st h
    have h0 : c0.text.isSome := h c0 (List.mem_cons_self _ _)
    cases ht : c0.text with
    | none => rw [ht] at h0; simp at h0
    | some t =>
      simp only [appendEntriesLoop, ht]
      have := ih { st with
        chunks := st.chunks ++ [{ text := t, metadata := c0.metadata.getD [] }] }
        (fun c hc => h c (List.mem_cons_of_mem _ hc))
      refine ⟨this.1, this.2.1, this.2.2.1, ?_⟩
      rw [this.2.2.2]
      simp
      omega

/-- C10 helper: add_chunks on the empty list is the identity with no
error. -/
theorem add_chunks_nil (st : VectorStore) : add_chunks st [] = (none, st) := by
  simp [add_chunks]

/-- C10: for every VectorStore state, add_chunks with an empty chunk list
raises no error and leaves the index, the entry list and the reported
statistics unchanged. -/
theorem add_chunks_empty_frame (st : VectorStore) :
    (add_chunks st []).1 = none ∧
    (add_chunks st []).2.index = st.index ∧
    (add_chunks st []).2.chunks = st.chunks ∧
    get_stats (add_chunks st []).2 = get_stats st := by
  rw [add_chunks_nil]
  exact ⟨rfl, rfl, rfl, rfl⟩

/-- C6: when some chunk carries an embedding whose length is not the
store's configured dimension, add_chunks raises and performs no partial
insertion: the returned state is the unmodified input state (index and
entry list included). -/
theorem add_chunks_dim_mismatch (st : VectorStore) (cs : List PyChunk)
    (hbad : ∃ c ∈ cs, ∃ e, c.embedding = some e ∧
      e.length ≠ st.embedding_dimension) :
    (add_chunks st cs).1.isSome ∧ (add_chunks st cs).2 = st := by
  obtain ⟨c, hc, e, he, hlen⟩ := hbad
  have hne : cs ≠ [] := by
    intro h; subst h; simp at hc
  have hemp : cs.isEmpty = false := by
    cases cs with
    | nil => exact absurd rfl hne
    | cons _ _ => rfl
  unfold add_chunks
  rw [hemp]
  simp only [Bool.false_eq_true, if_false]
  cases hex : extractEmbeddings cs with
  | none => simp
  | some embs =>
    cases hu : uniformLength embs with
    | none => simp only [hu]; simp
    | some L =>
      have hmem : e ∈ embs := extractEmbeddings_mem hex c hc e he
      have hL : e.length = L := uniformLength_mem hu e hmem
      have hLd : L ≠ st.embedding_dimension := hL ▸ hlen
      simp only [hu]
      simp only [if_neg hLd]
      simp

/-- Witness for C6 at a concrete store and chunk list: a 1-dimensional
embedding offered to a 2-dimensional store is rejected with the store
unchanged. -/
theorem add_chunks_dim_mismatch_witness :
    (add_chunks (VectorStore.init 2)
        [{ text := some "t", metadata := none, embedding := some [1] }]).1.isSome ∧
    (add_chunks (VectorStore.init 2)
        [{ text := some "t", metadata := none, embedding := some [1] }]).2 =
      VectorStore.init 2 := by
  exact add_chunks_dim_mismatch (VectorStore.init 2)
    [{ text := some "t", metadata := none, embedding := some [1] }]
    ⟨_, List.mem_cons_self _ _, [1], rfl, by decide⟩

theorem add_chunks_preserves_inv (st : VectorStore) (cs : List PyChunk)
    (htext : ∀ c ∈ cs, c.text.isSome)
    (hinv : st.chunks.length = st.index.length) :
    (add_chunks st cs).2.chunks.length = (add_chunks st cs).2.index.length := by
  unfold add_chunks
  cases hemp : cs.isEmpty with
  | true => simpa using hinv
  | false =>
    simp only [Bool.false_eq_true, if_false]
    cases hex : extractEmbeddings cs with
    | none => simpa using hinv
    | some embs =>
      cases hu : uniformLength embs with
      | none => simp only [hu]; simpa using hinv
      | some L =>
        simp only [hu]
        by_cases hL : L = st.embedding_dimension
        · simp only [if_pos hL]
          have h := appendEntriesLoop_all_texts cs
            { st with index := st.index ++ embs } htext
          rw [h.2.2.2, h.2.1]
          simp only [List.length_append]
          rw [extractEmbeddings_length hex] at *
          omega
        · simp only [if_neg hL]
          simpa using hinv

theorem runOps_preserves_inv (ops : List StoreOp) :
    ∀ st : VectorStore,
    (∀ op ∈ ops, textsOk op) →
    st.chunks.length = st.index.length →
    (runOps st ops).chunks.length = (runOps st ops).index.length := by
  induction ops with
  | nil => intro st _ hinv; exact hinv
  | cons op rest ih =>
    intro st h hinv
    simp only [runOps]
    refine ih (applyOp st op)
      (fun o ho => h o (List.mem_cons_of_mem _ ho)) ?_
    cases op with
    | add cs =>
      exact add_chunks_preserves_inv st cs
        (h _ (List.mem_cons_self _ _)) hinv
    | clear => rfl

/-- C2 (amended): starting from a fresh store, after any finite sequence of
add_chunks and clear calls in which every offered chunk has a text entry
(adds may still raise on missing, ragged or wrong-dimension embeddings),
total_chunks equals index_size. -/
theorem store_invariant_text_chunks (d : Nat) (ops : List StoreOp)
    (htext : ∀ op ∈ ops, textsOk op) :
    (get_stats (runOps (VectorStore.init d) ops)).total_chunks =
      (get_stats (runOps (VectorStore.init d) ops)).index_size :=
  runOps_preserves_inv ops (VectorStore.init d) htext rfl

/-- Witness for the amended C2 on a concrete sequence with a succeeding
add, a failing add (wrong dimension), a clear and another add. -/
theorem store_invariant_text_chunks_witness :
    (get_stats (runOps (VectorStore.init 1)
        [StoreOp.add [{ text := some "a", metadata := none, embedding := some [2] }],
         StoreOp.add [{ text := some "b", metadata := none, embedding := some [2, 3] }],
         StoreOp.clear,
         StoreOp.add [{ text := some "c", metadata := none, embedding := some [5] }]])).total_chunks =
    (get_stats (runOps (VectorStore.init 1)
        [StoreOp.add [{ text := some "a", metadata := none, embedding := some [2] }],
         StoreOp.add [{ text := some "b", metadata := none, embedding := some [2, 3] }],
         StoreOp.clear,
         StoreOp.add [{ text := some "c", metadata := none, embedding := some [5] }]])).index_size := by
  exact store_invariant_text_chunks 1 _ (by decide)

/-- C2 counterexample: a single add_chunks call with a chunk that has an
embedding but no text key leaves the index one entry ahead of the chunk
list, so the claimed invariant fails after this add (the FAISS add has
happened, the copy loop raised KeyError). -/
theorem store_invariant_counterexample :
    (get_stats (runOps (VectorStore.init 1)
        [StoreOp.add [{ text := none, metadata := none, embedding := some [1] }]])).total_chunks ≠
    (get_stats (runOps (VectorStore.init 1)
        [StoreOp.add [{ text := none, metadata := none, embedding := some [1] }]])).index_size := by
  decide

/-- C3 (amended): load performs no consistency validation and is not
all-or-nothing.  A missing index artifact raises and preserves the state; a
missing chunks artifact raises only after the in-memory index has already
been replaced; when both artifacts read, load succeeds unconditionally,
installing them even when their counts disagree. -/
theorem load_spec (st : VectorStore) (fs : StoreFiles) :
    (fs.index_file = none → load st fs = (some .fileNotFound, st)) ∧
    (∀ idx, fs.index_file = some idx → fs.chunks_file = none →
      load st fs = (some .fileNotFound, { st with index := idx })) ∧
    (∀ idx cs, fs.index_file = some idx → fs.chunks_file = some cs →
      load st fs = (none, { st with index := idx, chunks := cs })) := by
  refine ⟨?_, ?_, ?_⟩
  · intro h; simp [load, h]
  · intro idx hi hc; simp [load, hi, hc]
  · intro idx cs hi hc; simp [load, hi, hc]

/-- Witness for the amended C3: loading artifacts with one stored vector
but an empty entry list succeeds, and the index-only failure mode mutates
the index. -/
theorem load_spec_witness :
    load (VectorStore.init 1)
        { index_file := some [[1]], chunks_file := some [] } =
      (none, { embedding_dimension := 1, index := [[1]], chunks := [] }) ∧
    load (VectorStore.init 1)
        { index_file := some [[1]], chunks_file := none } =
      (some .fileNotFound, { embedding_dimension := 1, index := [[1]], chunks := [] }) := by
  constructor
  · exact (load_spec (VectorStore.init 1)
      { index_file := some [[1]], chunks_file := some [] }).2.2 [[1]] [] rfl rfl
  · exact (load_spec (VectorStore.init 1)
      { index_file := some [[1]], chunks_file := none }).2.1 [[1]] rfl rfl

/-- C3 counterexample: load finds mutually inconsistent artifacts (one
indexed vector, zero stored entries) and succeeds with no error, leaving
total_chunks different from index_size — the claimed corruption error is
never raised. -/
theorem load_mismatch_counterexample :
    (load (VectorStore.init 1)
        { index_file := some [[1]], chunks_file := some [] }).1 = none ∧
    (get_stats (load (VectorStore.init 1)
        { index_file := some [[1]], chunks_file := some [] }).2).total_chunks ≠
    (get_stats (load (VectorStore.init 1)
        { index_file := some [[1]], chunks_file := some [] }).2).index_size := by
  constructor
  · rfl
  · decide

/-- C7: a blank (empty or whitespace-only) question makes answer_question
return the fixed please-provide-a-question reply with confidence 0 and no
sources, raising nothing (the function is total). -/
theorem answer_question_blank (embed : String → List ℚ)
    (gen : String → List String → List QASource → String)
    (st : VectorStore) (question : String) (k : Nat) (min_similarity : ℝ)
    (h : question = "" ∨ pyStrip question.data = []) :
    answer_question embed gen st question k min_similarity =
      { answer := emptyQuestionMsg, sources := [], confidence := 0,
        num_sources := none } := by
  unfold answer_question
  rw [if_pos h]

/-- Witness for C7 at the concrete whitespace-only question. -/
theorem answer_question_blank_witness :
    answer_question (fun _ => []) (fun _ _ _ => "") (VectorStore.init 1)
        "  \t" 5 ((3 : ℝ) / 10) =
      { answer := emptyQuestionMsg, sources := [], confidence := 0,
        num_sources := none } := by
  exact answer_question_blank (fun _ => []) (fun _ _ _ => "")
    (VectorStore.init 1) "  \t" 5 ((3 : ℝ) / 10) (Or.inr (by decide))

theorem resolve_multi_value_eq (values : List Cand) (a b : Cand)
    (rest : List Cand) (hs : sortDescByConf values = a :: b :: rest) :
    resolve_multi_value values =
      if 1/5 < a.confidence - b.confidence then some a.value
      else some (if 0 < totalWeight values then
        weightedSum values / totalWeight values else a.value) := by
  unfold resolve_multi_value
  rw [hs]

/-- C1: conflict resolution on at least two candidates sorts descending by
confidence (a stable total order); a gap of strictly more than 0.2 between
top and runner-up returns the top value; otherwise the confidence-weighted
mean over all candidates is returned, the top-sorted value standing in when
the total confidence weight is zero.  The two spec examples evaluate to 100
and to the weighted mean 2080/23, which is within 0.1 of 90.5. -/
theorem resolve_multi_value_spec :
    (∀ values : List Cand, 2 ≤ values.length →
      (sortDescByConf values).Sorted confGE ∧
      (sortDescByConf values).Perm values ∧
      ∃ a b rest, sortDescByConf values = a :: b :: rest ∧
        (1/5 < a.confidence - b.confidence →
          resolve_multi_value values = some a.value) ∧
        (a.confidence - b.confidence ≤ 1/5 → 0 < totalWeight values →
          resolve_multi_value values =
            some (weightedSum values / totalWeight values)) ∧
        (a.confidence - b.confidence ≤ 1/5 → totalWeight values = 0 →
          resolve_multi_value values = some a.value)) ∧
    resolve_multi_value [⟨100, 9/10⟩, ⟨50, 1/2⟩] = some 100 ∧
    resolve_multi_value [⟨100, 3/5⟩, ⟨80, 11/20⟩] = some (2080/23) ∧
    |(2080 : ℚ)/23 - 181/2| < 1/10 := by
  have hs1 : sortDescByConf [⟨100, 9/10⟩, ⟨50, 1/2⟩] =
      [⟨100, 9/10⟩, ⟨50, 1/2⟩] := by
    simp only [sortDescByConf, List.insertionSort, List.orderedInsert]
    rw [if_pos (by unfold confGE; norm_num)]
  have hs2 : sortDescByConf [⟨100, 3/5⟩, ⟨80, 11/20⟩] =
      [⟨100, 3/5⟩, ⟨80, 11/20⟩] := by
    simp only [sortDescByConf, List.insertionSort, List.orderedInsert]
    rw [if_pos (by unfold confGE; norm_num)]
  refine ⟨?_, ?_, ?_, by norm_num [abs_lt]⟩
  · intro values hlen
    refine ⟨List.sorted_insertionSort confGE values,
      List.perm_insertionSort confGE values, ?_⟩
    have hl : (sortDescByConf values).length = values.length :=
      (List.perm_insertionSort confGE values).length_eq
    cases hsv : sortDescByConf values with
    | nil => rw [hsv] at hl; rw [← hl] at hlen; simp at hlen
    | cons a tl =>
      cases htl : tl with
      | nil =>
        rw [hsv, htl] at hl
        rw [← hl] at hlen
        simp at hlen
      | cons b rest =>
        subst htl
        have heq := resolve_multi_value_eq values a b rest hsv
        refine ⟨a, b, rest, rfl, ?_, ?_, ?_⟩
        · intro hgap
          rw [heq, if_pos hgap]
        · intro hgap htw
          rw [heq, if_neg (not_lt.2 hgap), if_pos htw]
        · intro hgap htw
          rw [heq, if_neg (not_lt.2 hgap), htw]
          simp
  · have heq := resolve_multi_value_eq _ _ _ _ hs1
    rw [heq, if_pos (by norm_num)]
  · have heq := resolve_multi_value_eq _ _ _ _ hs2
    rw [heq, if_neg (by norm_num), if_pos (by norm_num [totalWeight])]
    norm_num [totalWeight, weightedSum]

/-- Witness for C1 at a concrete candidate list with two entries, checking
the sortedness and permutation conclusions through the general statement. -/
theorem resolve_multi_value_spec_witness :
    (sortDescByConf [⟨7, 1⟩, ⟨3, 0⟩]).Sorted confGE ∧
    (sortDescByConf [⟨7, 1⟩, ⟨3, 0⟩]).Perm [⟨7, 1⟩, ⟨3, 0⟩] := by
  have h := resolve_multi_value_spec.1 [⟨7, 1⟩, ⟨3, 0⟩] (by decide)
  exact ⟨h.1, h.2.1⟩

theorem pySlice_replicate (n : Nat) (c : Char) (a b : Int) :
    ∃ m, pySlice (List.replicate n c) a b = List.replicate m c := by
  unfold pySlice
  simp only [List.take_replicate, List.drop_replicate]
  exact ⟨_, rfl⟩

theorem isPrefixOf_replicate_ne {c d : Char} (h : d ≠ c) (tl : List Char)
    (m : Nat) : ((d :: tl).isPrefixOf (List.replicate m c)) = false := by
  cases m with
  | zero => rfl
  | succ m =>
    simp only [List.replicate, List.isPrefixOf]
    simp [h]

theorem pyRfind_cons_replicate {c d : Char} (h : d ≠ c) (tl : List Char)
    (m : Nat) : pyRfind (d :: tl) (List.replicate m c) = -1 := by
  unfold pyRfind
  have hf : ((List.range ((List.replicate m c).length + 1)).filter
      (fun i => (d :: tl).isPrefixOf ((List.replicate m c).drop i))) = [] := by
    apply List.filter_eq_nil_iff.2
    intro i _
    rw [List.drop_replicate, isPrefixOf_replicate_ne h]
    simp
  rw [hf]
  rfl

theorem findDelim_replicate_A (m : Nat) :
    findDelim (List.replicate m 'A') = none := by
  have h1 := pyRfind_cons_replicate (show '.' ≠ 'A' by decide) [' '] m
  have h2 := pyRfind_cons_replicate (show '!' ≠ 'A' by decide) [' '] m
  have h3 := pyRfind_cons_replicate (show '?' ≠ 'A' by decide) [' '] m
  have h4 := pyRfind_cons_replicate (show '\n' ≠ 'A' by decide) [] m
  simp [findDelim, h1, h2, h3, h4]

theorem computeEnd_A (start : Int) :
    computeEnd ⟨5, 2⟩ (List.replicate 8 'A') start = min (start + 5) 8 := by
  unfold computeEnd
  simp only [List.length_replicate, Nat.cast_ofNat]
  obtain ⟨m, hm⟩ := pySlice_replicate 8 'A' start ((start + 5) ⊓ 8)
  split_ifs with h
  · rw [hm, findDelim_replicate_A]
  · rfl

theorem overlapLoop_A :
    ∀ (fuel : Nat) (start : Int) (acc : List (List Char)), start < 8 →
    overlapLoop ⟨5, 2⟩ (List.replicate 8 'A') fuel start acc = none := by
  intro fuel
  induction fuel with
  | zero => intro start acc _; rfl
  | succ n ih =>
    intro start acc h
    unfold overlapLoop
    rw [if_pos (by simpa using h)]
    apply ih
    rw [computeEnd_A]
    have hov : (((⟨5, 2⟩ : ChunkerCfg).chunk_overlap : Nat) : Int) = 2 := rfl
    rw [hov]
    have : min (start + 5) 8 ≤ 8 := min_le_right _ _
    omega

/-- C4: the chunk_with_overlap loop never terminates on the text of eight
letters with chunk_size 5 and chunk_overlap 2 (a configuration with
0 ≤ overlap < size): however much fuel the loop gets, the window start
stays below the text length, because the final window always ends at the
text length and start is then reset to length - overlap.  The claim that
the loop always terminates is false; the repository's own
test_chunk_with_overlap (chunk_size 100, overlap 20, 200 letters) hangs
the same way. -/
theorem chunk_with_overlap_diverges :
    ∀ fuel : Nat,
      chunk_with_overlap ⟨5, 2⟩ (List.replicate 8 'A') fuel = none := by
  intro fuel
  unfold chunk_with_overlap
  rw [if_neg (by decide)]
  have hclean : clean_text (List.replicate 8 'A') = List.replicate 8 'A' := by
    simp [clean_text, List.replicate, collapseWS, subNL, lastNLIdx, pyStrip,
      isWS, List.dropWhile]
  rw [hclean]
  exact overlapLoop_A fuel 0 [] (by norm_num)

/-- C9: the first substitution of _clean_text collapses every whitespace
run — newlines included — to a single space, so blank-line paragraph
separators do not survive cleaning and the subsequent blank-line split
returns the whole text as one paragraph: on the input of the letter a, a
blank line, and the letter b, cleaning yields the three characters a,
space, b and the split yields that single paragraph rather than the two
blocks of the input. -/
theorem clean_text_kills_blank_lines :
    clean_text "a\n\nb".data = "a b".data ∧
    split_into_paragraphs (clean_text "a\n\nb".data) = ["a b".data] ∧
    split_into_paragraphs (clean_text "a\n\nb".data) ≠
      ["a".data, "b".data] := by
  have h1 : clean_text "a\n\nb".data = "a b".data := by
    simp [clean_text, collapseWS, subNL, lastNLIdx, pyStrip, isWS,
      List.dropWhile]
  refine ⟨h1, ?_, ?_⟩
  · rw [h1]
    simp [split_into_paragraphs, splitParasAux, lastNLIdx, pyStrip, isWS,
      List.dropWhile]
  · rw [h1]
    simp [split_into_paragraphs, splitParasAux, lastNLIdx, pyStrip, isWS,
      List.dropWhile]

theorem pairwise_filterMap_of {α β : Type} {R : α → α → Prop}
    {S : β → β → Prop} (f : α → Option β)
    (hf : ∀ a b x y, R a b → f a = some x → f b = some y → S x y) :
    ∀ {l : List α}, l.Pairwise R → (l.filterMap f).Pairwise S := by
  intro l
  induction l with
  | nil => intro; simp
  | cons a l ih =>
    intro h
    rw [List.pairwise_cons] at h
    rw [List.filterMap_cons]
    cases hfa : f a with
    | none => exact ih h.2
    | some x =>
      rw [List.pairwise_cons]
      refine ⟨?_, ih h.2⟩
      intro y hy
      obtain ⟨b, hb, hfb⟩ := List.mem_filterMap.1 hy
      exact hf a b x y (h.1 b hb) hfa hfb

theorem search_mem {st : VectorStore} {q : List ℚ} {k : Nat}
    {p : Entry × ℚ} (hp : p ∈ search st q k) :
    ∃ i, ∃ h : i < st.index.length, ∃ h' : i < st.chunks.length,
      p.1 = st.chunks.get ⟨i, h'⟩ ∧ p.2 = sqL2 q (st.index.get ⟨i, h⟩) := by
  unfold search at hp
  by_cases h0 : st.index.length = 0
  · rw [if_pos h0] at hp; simp at hp
  · rw [if_neg h0] at hp
    obtain ⟨x, hx, hfx⟩ := List.mem_filterMap.1 hp
    have hx2 : x ∈ ((st.index.map (fun v => sqL2 q v)).enum).insertionSort distLE :=
      (List.take_sublist _ _).subset hx
    have hx3 : x ∈ (st.index.map (fun v => sqL2 q v)).enum :=
      (List.mem_insertionSort distLE).1 hx2
    obtain ⟨i, d⟩ := x
    have hx4 : (st.index.map (fun v => sqL2 q v))[i]? = some d :=
      List.mk_mem_enum_iff_getElem?.1 hx3
    rw [List.getElem?_map] at hx4
    obtain ⟨v, hv, hfv⟩ := Option.map_eq_some'.1 hx4
    have hi : i < st.index.length := (List.getElem?_eq_some_iff.1 hv).1
    have hveq : st.index.get ⟨i, hi⟩ = v := by
      have h2 := List.getElem?_eq_getElem hi
      rw [hv] at h2
      exact (Option.some.inj h2).symm
    by_cases hc : i < st.chunks.length
    · rw [dif_pos hc] at hfx
      have hpx := Option.some.inj hfx
      refine ⟨i, hi, hc, ?_, ?_⟩
      · rw [← hpx]
      · rw [← hpx, hveq, ← hfv]
    · rw [dif_neg hc] at hfx
      exact Option.noConfusion hfx

theorem search_pairwise (st : VectorStore) (q : List ℚ) (k : Nat) :
    (search st q k).Pairwise (fun x y => x.2 ≤ y.2) := by
  unfold search
  by_cases h0 : st.index.length = 0
  · rw [if_pos h0]; simp
  · rw [if_neg h0]
    apply pairwise_filterMap_of (R := distLE)
    · intro a b x y hab ha hb
      by_cases hca : a.1 < st.chunks.length
      · rw [dif_pos hca] at ha
        by_cases hcb : b.1 < st.chunks.length
        · rw [dif_pos hcb] at hb
          have hax := Option.some.inj ha
          have hby := Option.some.inj hb
          rw [← hax, ← hby]
          exact hab
        · rw [dif_neg hcb] at hb
          exact Option.noConfusion hb
      · rw [dif_neg hca] at ha
        exact Option.noConfusion ha
    · exact List.Pairwise.sublist (List.take_sublist _ _)
        (List.sorted_insertionSort distLE _)

/-- C5 (amended): every result of search_with_score carries similarity
exp(-distance) where distance is the squared L2 distance between the query
and that entry's stored vector — faiss.IndexFlatL2 reports squared L2
distances, not Euclidean ones; with a threshold given, every returned
similarity meets it; and the results are ordered by descending
similarity. -/
theorem search_with_score_spec (st : VectorStore) (q : List ℚ) (k : Nat)
    (t : Option ℝ) :
    (∀ p ∈ search_with_score st q k t,
      ∃ i, ∃ h : i < st.index.length, ∃ h' : i < st.chunks.length,
        p.1 = st.chunks.get ⟨i, h'⟩ ∧
        p.2 = Real.exp (-(sqL2 q (st.index.get ⟨i, h⟩) : ℝ))) ∧
    (∀ τ : ℝ, t = some τ → ∀ p ∈ search_with_score st q k t, τ ≤ p.2) ∧
    ((search_with_score st q k t).map Prod.snd).Sorted
      (fun a b : ℝ => b ≤ a) := by
  refine ⟨?_, ?_, ?_⟩
  · intro p hp
    unfold search_with_score at hp
    obtain ⟨pd, hpd, hf⟩ := List.mem_filterMap.1 hp
    obtain ⟨i, h, h', hc, hd⟩ := search_mem hpd
    have hpe : p = (pd.1, Real.exp (-(pd.2 : ℝ))) := by
      cases t with
      | none => exact (Option.some.inj hf).symm
      | some τ =>
        simp only at hf
        split at hf
        · exact (Option.some.inj hf).symm
        · exact Option.noConfusion hf
    refine ⟨i, h, h', ?_, ?_⟩
    · rw [hpe, hc]
    · rw [hpe, hd]
  · intro τ ht p hp
    subst ht
    unfold search_with_score at hp
    obtain ⟨pd, hpd, hf⟩ := List.mem_filterMap.1 hp
    simp only at hf
    split at hf
    · rw [← Option.some.inj hf]
      assumption
    · exact Option.noConfusion hf
  · refine List.pairwise_map.2 ?_
    unfold search_with_score
    apply pairwise_filterMap_of (R := fun x y : Entry × ℚ => x.2 ≤ y.2)
    · intro a b x y hab ha hb
      have hxy : x.2 = Real.exp (-(a.2 : ℝ)) ∧ y.2 = Real.exp (-(b.2 : ℝ)) := by
        cases t with
        | none =>
          exact ⟨by rw [← Option.some.inj ha], by rw [← Option.some.inj hb]⟩
        | some τ =>
          simp only at ha hb
          split at ha
          · split at hb
            · exact ⟨by rw [← Option.some.inj ha], by rw [← Option.some.inj hb]⟩
            · exact Option.noConfusion hb
          · exact Option.noConfusion ha
      rw [hxy.1, hxy.2]
      exact Real.exp_le_exp.2 (neg_le_neg (Rat.cast_le.2 hab))
    · exact search_pairwise st q k

/-- Witness for C5 on a one-entry store: the entry at squared distance 9
from the query is returned with similarity exp(-9), and the threshold 0 is
met. -/
theorem search_with_score_spec_witness :
    ((⟨"t", []⟩ : Entry), Real.exp (-((9 : ℚ) : ℝ))) ∈
      search_with_score ⟨1, [[3]], [⟨"t", []⟩]⟩ [0] 1 (some 0) ∧
    (0 : ℝ) ≤ Real.exp (-((9 : ℚ) : ℝ)) := by
  have hd : sqL2 [(0 : ℚ)] [3] = 9 := by
    simp [sqL2]
    norm_num
  have hs : search ⟨1, [[3]], [⟨"t", []⟩]⟩ [0] 1 = [(⟨"t", []⟩, 9)] := by
    unfold search
    rw [if_neg (by decide)]
    simp [List.enum, List.enumFrom, List.insertionSort, List.orderedInsert, hd]
  have hm : ((⟨"t", []⟩ : Entry), Real.exp (-((9 : ℚ) : ℝ))) ∈
      search_with_score ⟨1, [[3]], [⟨"t", []⟩]⟩ [0] 1 (some 0) := by
    unfold search_with_score
    rw [hs]
    simp only [List.filterMap_cons, List.filterMap_nil]
    rw [if_pos (le_of_lt (Real.exp_pos _))]
    exact List.mem_cons_self _ _
  exact ⟨hm, (search_with_score_spec ⟨1, [[3]], [⟨"t", []⟩]⟩ [0] 1
    (some 0)).2.1 0 rfl _ hm⟩

theorem nonWS_append (a b : List Char) :
    nonWS (a ++ b) = nonWS a ++ nonWS b := by
  simp [nonWS]

theorem nonWS_cons_ws {c : Char} (h : isWS c = true) (l : List Char) :
    nonWS (c :: l) = nonWS l := by
  simp [nonWS, h]

theorem nonWS_cons_keep {c : Char} (h : isWS c = false) (l : List Char) :
    nonWS (c :: l) = c :: nonWS l := by
  simp [nonWS, h]

theorem nonWS_all_ws {l : List Char} (h : ∀ c ∈ l, isWS c = true) :
    nonWS l = [] := by
  unfold nonWS
  apply List.filter_eq_nil_iff.2
  intro c hc
  simp [h c hc]

theorem nonWS_dropWhile_ws (l : List Char) :
    nonWS (l.dropWhile (fun c => isWS c)) = nonWS l := by
  induction l with
  | nil => rfl
  | cons c rest ih =>
    cases hws : isWS c with
    | true =>
      rw [List.dropWhile_cons_of_pos (by simp [hws]), ih, nonWS_cons_ws hws]
    | false =>
      rw [List.dropWhile_cons_of_neg (by simp [hws])]

theorem nonWS_reverse (l : List Char) :
    nonWS l.reverse = (nonWS l).reverse :=
  List.filter_reverse _ l

theorem nonWS_pyStrip (l : List Char) : nonWS (pyStrip l) = nonWS l := by
  unfold pyStrip
  rw [nonWS_reverse, nonWS_dropWhile_ws, nonWS_reverse, nonWS_dropWhile_ws,
    List.reverse_reverse]

theorem nonWS_takeWhile_ws (l : List Char) :
    nonWS (l.takeWhile (fun c => isWS c)) = [] :=
  nonWS_all_ws (fun c hc => by simpa using List.mem_takeWhile_imp hc)

theorem lastNLIdx_lt {l : List Char} {k : Nat} (h : lastNLIdx l = some k) :
    k < l.length := by
  unfold lastNLIdx at h
  have hk := List.max?_mem (fun x y => max_choice x y) h
  have := (List.mem_filter.1 hk).1
  exact List.mem_range.1 this

theorem nonWS_take_run {rest : List Char} {k : Nat}
    (h : lastNLIdx (rest.takeWhile (fun d => isWS d)) = some k) :
    nonWS (rest.take (k + 1)) = [] := by
  have hlt : k < (rest.takeWhile (fun d => isWS d)).length := lastNLIdx_lt h
  apply nonWS_all_ws
  intro c hc
  have hsplit : rest = rest.takeWhile (fun d => isWS d) ++
      rest.dropWhile (fun d => isWS d) := (List.takeWhile_append_dropWhile _ _).symm
  rw [hsplit, List.take_append_of_le_length (by omega)] at hc
  have hc2 : c ∈ rest.takeWhile (fun d => isWS d) := List.take_subset _ _ hc
  simpa using List.mem_takeWhile_imp hc2

theorem nonWS_drop_run {rest : List Char} {k : Nat}
    (h : lastNLIdx (rest.takeWhile (fun d => isWS d)) = some k) :
    nonWS (rest.drop (k + 1)) = nonWS rest := by
  conv_rhs => rw [← List.take_append_drop (k + 1) rest]
  rw [nonWS_append, nonWS_take_run h, List.nil_append]

theorem nonWS_collapseWS (l : List Char) : nonWS (collapseWS l) = nonWS l := by
  induction l using collapseWS.induct with
  | case1 => rw [collapseWS]
  | case2 c rest hws ih =>
    rw [collapseWS]
    rw [if_pos hws, nonWS_cons_ws (by rfl), ih, nonWS_dropWhile_ws,
      nonWS_cons_ws hws]
  | case3 c rest hws ih =>
    rw [collapseWS]
    rw [if_neg hws]
    have hf : isWS c = false := by
      cases h : isWS c with
      | true => exact absurd h hws
      | false => rfl
    rw [nonWS_cons_keep hf, ih, nonWS_cons_keep hf]

theorem subNL_cons_some {rest : List Char} {k : Nat}
    (hk : lastNLIdx (rest.takeWhile (fun d => isWS d)) = some k) :
    subNL ('\n' :: rest) = '\n' :: '\n' :: subNL (rest.drop (k + 1)) := by
  rw [subNL.eq_def]
  simp [hk]

theorem subNL_cons_none {rest : List Char}
    (hk : lastNLIdx (rest.takeWhile (fun d => isWS d)) = none) :
    subNL ('\n' :: rest) = '\n' :: subNL rest := by
  rw [subNL.eq_def]
  simp [hk]

theorem subNL_cons_ne {c : Char} {rest : List Char} (h : ¬c = '\n') :
    subNL (c :: rest) = c :: subNL rest := by
  rw [subNL.eq_def]
  simp [h]

theorem nonWS_subNL (l : List Char) : nonWS (subNL l) = nonWS l := by
  induction l using subNL.induct with
  | case1 => rw [subNL]
  | case2 rest k hk ih =>
    rw [subNL_cons_some hk]
    rw [nonWS_cons_ws (by rfl), nonWS_cons_ws (by rfl), ih,
      nonWS_drop_run hk, nonWS_cons_ws (by rfl)]
  | case3 rest hk ih =>
    rw [subNL_cons_none hk, nonWS_cons_ws (by rfl), nonWS_cons_ws (by rfl), ih]
  | case4 c rest hne ih =>
    rw [subNL_cons_ne hne]
    cases hws : isWS c with
    | true => rw [nonWS_cons_ws hws, nonWS_cons_ws hws, ih]
    | false => rw [nonWS_cons_keep hws, nonWS_cons_keep hws, ih]

theorem nonWS_clean_text (l : List Char) : nonWS (clean_text l) = nonWS l := by
  unfold clean_text
  rw [nonWS_pyStrip, nonWS_subNL, nonWS_collapseWS]

theorem nonWS_nil : nonWS [] = [] := rfl

theorem nonWS_space : nonWS [' '] = [] := rfl

theorem nonWS_nl2 : nonWS ['\n', '\n'] = [] := rfl

theorem splitParasAux_nil (cur : List Char) : splitParasAux cur [] = [cur] := by
  rw [splitParasAux]

theorem splitParasAux_cons_some {rest : List Char} {k : Nat} (cur : List Char)
    (hk : lastNLIdx (rest.takeWhile (fun d => isWS d)) = some k) :
    splitParasAux cur ('\n' :: rest) =
      cur :: splitParasAux [] (rest.drop (k + 1)) := by
  rw [splitParasAux.eq_def]
  simp [hk]

theorem splitParasAux_cons_none {rest : List Char} (cur : List Char)
    (hk : lastNLIdx (rest.takeWhile (fun d => isWS d)) = none) :
    splitParasAux cur ('\n' :: rest) = splitParasAux (cur ++ ['\n']) rest := by
  rw [splitParasAux.eq_def]
  simp [hk]

theorem splitParasAux_cons_ne {c : Char} {rest : List Char} (cur : List Char)
    (h : ¬c = '\n') :
    splitParasAux cur (c :: rest) = splitParasAux (cur ++ [c]) rest := by
  rw [splitParasAux.eq_def]
  simp [h]

theorem nonWS_flatten_splitParasAux (cur l : List Char) :
    nonWS (List.flatten (splitParasAux cur l)) = nonWS cur ++ nonWS l := by
  induction cur, l using splitParasAux.induct with
  | case1 cur => rw [splitParasAux_nil]; simp [nonWS_nil]
  | case2 cur rest k hk ih =>
    rw [splitParasAux_cons_some cur hk, List.flatten_cons, nonWS_append, ih,
      nonWS_drop_run hk, nonWS_cons_ws (by rfl), nonWS_nil]
    simp
  | case3 cur rest hk ih =>
    rw [splitParasAux_cons_none cur hk, ih, nonWS_append,
      nonWS_cons_ws (by rfl), nonWS_cons_ws (by rfl), nonWS_nil]
    simp
  | case4 cur c rest hne ih =>
    rw [splitParasAux_cons_ne cur hne, ih, nonWS_append]
    have h1 : nonWS (c :: rest) = nonWS [c] ++ nonWS rest := by
      rw [← nonWS_append]
      simp
    rw [h1]
    simp

theorem splitSentAux_nil (cur : List Char) : splitSentAux cur [] = [cur] := by
  rw [splitSentAux]

theorem splitSentAux_cons_split {cur : List Char} {c : Char}
    {rest : List Char} (h : (isWS c && isSentEnd cur.getLast?) = true) :
    splitSentAux cur (c :: rest) =
      cur :: splitSentAux [] (rest.dropWhile (fun d => isWS d)) := by
  rw [splitSentAux.eq_def]
  simp [h]

theorem splitSentAux_cons_acc {cur : List Char} {c : Char}
    {rest : List Char} (h : ¬(isWS c && isSentEnd cur.getLast?) = true) :
    splitSentAux cur (c :: rest) = splitSentAux (cur ++ [c]) rest := by
  rw [splitSentAux.eq_def]
  simp [h]

theorem nonWS_flatten_splitSentAux (cur l : List Char) :
    nonWS (List.flatten (splitSentAux cur l)) = nonWS cur ++ nonWS l := by
  induction cur, l using splitSentAux.induct with
  | case1 cur => rw [splitSentAux_nil]; simp [nonWS_nil]
  | case2 cur c rest h ih =>
    have hws : isWS c = true := by
      have h2 := h
      rw [Bool.and_eq_true] at h2
      exact h2.1
    rw [splitSentAux_cons_split h, List.flatten_cons, nonWS_append, ih,
      nonWS_dropWhile_ws, nonWS_cons_ws hws, nonWS_nil]
    simp
  | case3 cur c rest h ih =>
    rw [splitSentAux_cons_acc h, ih, nonWS_append]
    have h1 : nonWS (c :: rest) = nonWS [c] ++ nonWS rest := by
      rw [← nonWS_append]
      simp
    rw [h1]
    simp

theorem nonWS_flatten_stripKeep (ps : List (List Char)) :
    nonWS (List.flatten (ps.filterMap fun p =>
      let q := pyStrip p
      if q = [] then none else some q)) = nonWS (List.flatten ps) := by
  induction ps with
  | nil => rfl
  | cons p ps ih =>
    rw [List.filterMap_cons]
    by_cases hq : pyStrip p = []
    · have hp : nonWS p = [] := by
        rw [← nonWS_pyStrip, hq]
        exact nonWS_nil
      simp only [hq]
      simp [ih, List.flatten_cons, nonWS_append, hp, nonWS_nil]
    · have hp := nonWS_pyStrip p
      simp only [hq]
      simp [hq, ih, List.flatten_cons, nonWS_append, hp]

theorem nonWS_split_into_paragraphs (t : List Char) :
    nonWS (List.flatten (split_into_paragraphs t)) = nonWS t := by
  unfold split_into_paragraphs
  rw [nonWS_flatten_stripKeep, nonWS_flatten_splitParasAux]
  rfl

theorem nonWS_split_into_sentences (t : List Char) :
    nonWS (List.flatten (split_into_sentences t)) = nonWS t := by
  unfold split_into_sentences
  rw [nonWS_flatten_stripKeep, nonWS_flatten_splitSentAux]
  rfl

theorem sentLoop_cons (cfg : ChunkerCfg) (s : List Char)
    (rest : List (List Char)) (cur : List Char) (acc : List (List Char)) :
    sentLoop cfg (s :: rest) cur acc =
      if cfg.chunk_size < cur.length + s.length then
        sentLoop cfg rest (s ++ [' '])
          (if cur = [] then acc else acc ++ [pyStrip cur])
      else sentLoop cfg rest (cur ++ s ++ [' ']) acc := rfl

theorem sentLoop_nonWS (cfg : ChunkerCfg) (ss : List (List Char)) :
    ∀ (cur : List Char) (acc : List (List Char)),
    nonWS (List.flatten (sentLoop cfg ss cur acc).2) ++
        nonWS (sentLoop cfg ss cur acc).1 =
      nonWS (List.flatten acc) ++ nonWS cur ++ nonWS (List.flatten ss) := by
  induction ss with
  | nil => intro cur acc; simp [sentLoop, nonWS_nil]
  | cons s rest ih =>
    intro cur acc
    rw [sentLoop_cons]
    by_cases hb : cfg.chunk_size < cur.length + s.length
    · rw [if_pos hb]
      by_cases hcur : cur = []
      · rw [if_pos hcur, ih]
        subst hcur
        simp [List.flatten_cons, nonWS_append, nonWS_space, nonWS_nil]
      · rw [if_neg hcur, ih]
        simp [List.flatten_cons, List.flatten_append, nonWS_append,
          nonWS_space, nonWS_nil, nonWS_pyStrip]
    · rw [if_neg hb, ih]
      simp [List.flatten_cons, nonWS_append, nonWS_space, nonWS_nil]

theorem paraLoop_cons (cfg : ChunkerCfg) (p : List Char)
    (rest : List (List Char)) (cur : List Char) (acc : List (List Char)) :
    paraLoop cfg (p :: rest) cur acc =
      if cfg.chunk_size < p.length then
        paraLoop cfg rest
          (sentLoop cfg (split_into_sentences p) []
            (if cur = [] then acc else acc ++ [pyStrip cur])).1
          (sentLoop cfg (split_into_sentences p) []
            (if cur = [] then acc else acc ++ [pyStrip cur])).2
      else
        if cfg.chunk_size < cur.length + p.length then
          paraLoop cfg rest (p ++ ['\n', '\n'])
            (if cur = [] then acc else acc ++ [pyStrip cur])
        else paraLoop cfg rest (cur ++ p ++ ['\n', '\n']) acc := rfl

theorem paraLoop_nonWS (cfg : ChunkerCfg) (ps : List (List Char)) :
    ∀ (cur : List Char) (acc : List (List Char)),
    nonWS (List.flatten (paraLoop cfg ps cur acc).2) ++
        nonWS (paraLoop cfg ps cur acc).1 =
      nonWS (List.flatten acc) ++ nonWS cur ++ nonWS (List.flatten ps) := by
  induction ps with
  | nil => intro cur acc; simp [paraLoop, nonWS_nil]
  | cons p rest ih =>
    intro cur acc
    rw [paraLoop_cons]
    by_cases hlong : cfg.chunk_size < p.length
    · rw [if_pos hlong, ih]
      have hsl := sentLoop_nonWS cfg (split_into_sentences p) []
        (if cur = [] then acc else acc ++ [pyStrip cur])
      rw [nonWS_split_into_sentences] at hsl
      rw [hsl]
      by_cases hcur : cur = []
      · rw [if_pos hcur]
        subst hcur
        simp [List.flatten_cons, nonWS_append, nonWS_nil]
      · rw [if_neg hcur]
        simp [List.flatten_cons, List.flatten_append, nonWS_append,
          nonWS_nil, nonWS_pyStrip]
    · rw [if_neg hlong]
      by_cases hfit : cfg.chunk_size < cur.length + p.length
      · rw [if_pos hfit, ih]
        by_cases hcur : cur = []
        · rw [if_pos hcur]
          subst hcur
          simp [List.flatten_cons, nonWS_append, nonWS_nil, nonWS_nl2]
        · rw [if_neg hcur]
          simp [List.flatten_cons, List.flatten_append, nonWS_append,
            nonWS_nil, nonWS_nl2, nonWS_pyStrip]
      · rw [if_neg hfit, ih]
        simp [List.flatten_cons, nonWS_append, nonWS_nl2]

/-- C8: for every configuration and input text, the concatenation of the
chunk texts produced by chunk_text has exactly the non-whitespace character
sequence of the input: nothing outside whitespace is lost or duplicated by
cleaning, paragraph and sentence splitting, or chunk assembly. -/
theorem chunk_text_nonWS (cfg : ChunkerCfg) (text : List Char) :
    nonWS (List.flatten (chunk_text cfg text)) = nonWS text := by
  unfold chunk_text
  by_cases hguard : text = [] ∨ pyStrip text = []
  · rw [if_pos hguard]
    rcases hguard with h | h
    · subst h; rfl
    · have : nonWS text = [] := by
        rw [← nonWS_pyStrip, h]
        exact nonWS_nil
      rw [this]
      rfl
  · rw [if_neg hguard]
    have hp := paraLoop_nonWS cfg (split_into_paragraphs (clean_text text)) [] []
    have hps : nonWS (List.flatten (split_into_paragraphs (clean_text text))) =
        nonWS text := by
      rw [nonWS_split_into_paragraphs, nonWS_clean_text]
    rw [hps] at hp
    simp only [List.flatten_nil, nonWS_nil, List.nil_append] at hp
    by_cases hrem : pyStrip (paraLoop cfg (split_into_paragraphs
        (clean_text text)) [] []).1 ≠ []
    · rw [if_pos hrem]
      rw [List.flatten_append, nonWS_append]
      have hone : nonWS (List.flatten [pyStrip (paraLoop cfg
          (split_into_paragraphs (clean_text text)) [] []).1]) =
          nonWS (paraLoop cfg (split_into_paragraphs (clean_text text)) [] []).1 := by
        simp [nonWS_append, nonWS_pyStrip, nonWS_nil]
      rw [hone, hp]
    · rw [if_neg hrem]
      push_neg at hrem
      have hz : nonWS (paraLoop cfg (split_into_paragraphs
          (clean_text text)) [] []).1 = [] := by
        rw [← nonWS_pyStrip, hrem]
        exact nonWS_nil
      rw [hz, List.append_nil] at hp
      exact hp

/-- C5 counterexample: on a store holding the single vector [3] and the
query [0], whose Euclidean (L2) distance is 3, search_with_score returns
the similarity exp(-9) — the exponential of the negated squared L2
distance that faiss.IndexFlatL2 reports — and exp(-9) is not exp(-3), so
the similarity does not equal exp(-d) for the entry's L2 distance d as the
claim states. -/
theorem search_with_score_not_euclidean :
    (search_with_score ⟨1, [[3]], [⟨"t", []⟩]⟩ [0] 1 none).map Prod.snd =
      [Real.exp (-((9 : ℚ) : ℝ))] ∧
    Real.sqrt ((sqL2 [(0 : ℚ)] [3] : ℚ) : ℝ) = 3 ∧
    Real.exp (-((9 : ℚ) : ℝ)) ≠ Real.exp (-(3 : ℝ)) := by
  have hd : sqL2 [(0 : ℚ)] [3] = 9 := by
    simp [sqL2]
    norm_num
  refine ⟨?_, ?_, ?_⟩
  · have hs : search ⟨1, [[3]], [⟨"t", []⟩]⟩ [0] 1 = [(⟨"t", []⟩, 9)] := by
      unfold search
      rw [if_neg (by decide)]
      simp [List.enum, List.enumFrom, List.insertionSort, List.orderedInsert, hd]
    unfold search_with_score
    rw [hs]
    simp
  · rw [hd]
    push_cast
    rw [show (9 : ℝ) = 3 ^ 2 by norm_num]
    exact Real.sqrt_sq (by norm_num)
  · intro h
    have h2 := Real.exp_eq_exp.1 h
    push_cast at h2
    norm_num at h2
